import Mathlib

/-!
Shallow embedding of the eigentrust-protocol repository.

Part 1 embeds `src/peer.rs`: the `Peer` structure and its operations
`new`, `add_neighbor`, `get_local_trust_score` and `heartbeat`.
Rust `f64` scores are modelled as `ℚ`; the generic peer index
`C::Index` (totally ordered, constructible from `usize`) is modelled
as `Nat`; the `BTreeMap<C::Index, f64>` is modelled as an association
list with unique keys and an insert that overwrites.  The Rust
expression `self.local_trust_scores[i]` panics when the key is
absent; the embedding returns `Option ℚ`, with `none` standing for
that panic, and `heartbeat` correspondingly returns `Option Peer`
(`none` = the call aborts with a panic).
-/

namespace EigenTrust

/-- Embedding of the `Peer<C>` struct of `src/peer.rs` (fields in source
order). -/
structure Peer where
  index : Nat
  local_trust_scores : List (Nat × ℚ)
  global_trust_score : ℚ
  pre_trust_score : ℚ
  is_converged : Bool
deriving DecidableEq, Repr

/-- BTreeMap insert: overwrite the value when the key is present,
append otherwise. -/
def btreeInsert (m : List (Nat × ℚ)) (k : Nat) (v : ℚ) : List (Nat × ℚ) :=
  match m with
  | [] => [(k, v)]
  | (k', v') :: rest =>
    if k = k' then (k, v) :: rest else (k', v') :: btreeInsert rest k v

/-- Embedding of `Peer::new`. -/
def Peer.new (index : Nat) (global_trust_score pre_trust_score : ℚ) : Peer :=
  { index := index
    local_trust_scores := []
    global_trust_score := global_trust_score
    pre_trust_score := pre_trust_score
    is_converged := false }

/-- Embedding of `Peer::add_neighbor`: insert into the local-trust map. -/
def Peer.add_neighbor (p : Peer) (peer_index : Nat) (local_trust_value : ℚ) : Peer :=
  { p with local_trust_scores := btreeInsert p.local_trust_scores peer_index local_trust_value }

/-- Embedding of `Peer::get_local_trust_score`.  The source indexes the
`BTreeMap`, which panics on an absent key; here `none` models that
panic. -/
def Peer.get_local_trust_score (p : Peer) (i : Nat) : Option ℚ :=
  p.local_trust_scores.lookup i

/-- The accumulation loop of `Peer::heartbeat` (lines 51-68 of
`src/peer.rs`): running over the snapshot, skip entries with the
peer's own index, otherwise add
`neighbor.get_local_trust_score(i) * neighbor.global_trust_score` to
the accumulator; a missing local-trust entry aborts the whole loop
(the Rust code panics there). -/
def heartbeat_sum (i : Nat) (acc : ℚ) : List Peer → Option ℚ
  | [] => some acc
  | j :: rest =>
    if i = j.index then heartbeat_sum i acc rest
    else
      match j.get_local_trust_score i with
      | none => none
      | some w => heartbeat_sum i (acc + w * j.global_trust_score) rest

/-- Embedding of `Peer::heartbeat`: early return when converged,
otherwise accumulate the weighted opinions, blend with the pre-trust
score, latch convergence when the change is within `delta`, and commit
the new score.  `none` models the panic of a failed map lookup. -/
def Peer.heartbeat (p : Peer) (neighbors : List Peer) (delta pre_trust_weight : ℚ) :
    Option Peer :=
  if p.is_converged then some p
  else
    match heartbeat_sum p.index 0 neighbors with
    | none => none
    | some t =>
      let new_global_trust_score := (1 - pre_trust_weight) * t
        + pre_trust_weight * p.pre_trust_score
      some { p with
        global_trust_score := new_global_trust_score
        is_converged :=
          if |new_global_trust_score - p.global_trust_score| ≤ delta then true
          else p.is_converged }

/-- The spec's aggregation sum: over all snapshot entries with an index
other than `i`, the entry's declared local trust toward `i` (zero when
absent) times the entry's global trust score. -/
def raw_sum_spec (i : Nat) (neighbors : List Peer) : ℚ :=
  ((neighbors.filter (fun j => i != j.index)).map
    (fun j => ((j.get_local_trust_score i).getD 0) * j.global_trust_score)).sum

/-!
Part 2 embeds `src/circuit/src/gadgets/absorb.rs`: the `AbsorbChip`
gadget.  The halo2 substrate is modelled explicitly: a `Cell` is a
(row, column) position, an `AssignedCell` carries a position and a
`Value<F>` modelled as `Option F` (`none` = unknown), and a
`RegionCtx` records the current row offset, the rows at which the
selector was enabled, the assignments made, and the copy constraints
registered by `copy_assign`.  Advice columns are named by `Nat`
through the `advice : Nat → Nat` map standing for
`CommonConfig.advice`.  The region is unbounded here, so the region
operations always return `Except.ok`, mirroring the `Result` type of
the source whose only errors come from table bookkeeping outside this
repository. -/

/-- A table position: row and column. -/
structure Cell where
  row : Nat
  col : Nat
deriving DecidableEq, Repr

/-- Embedding of halo2's `AssignedCell<F, F>`: a position together with
the assigned `Value<F>` (`none` models `Value::unknown()`). -/
structure AssignedCell (F : Type) where
  cell : Cell
  value : Option F
deriving DecidableEq, Repr

/-- Embedding of `RegionCtx<'_, F>`: the mutable region state threaded
through the gadget's assignment phase. -/
structure RegionCtx (F : Type) where
  offset : Nat
  enabled : List Nat
  assignments : List (Cell × Option F)
  copies : List (Cell × Cell)
deriving DecidableEq, Repr

/-- Embedding of `RegionCtx::new(region, offset)`. -/
def RegionCtx.new (F : Type) (offset : Nat) : RegionCtx F :=
  { offset := offset, enabled := [], assignments := [], copies := [] }

/-- Embedding of `ctx.enable(selector)`: the selector is turned on at the
current offset. -/
def RegionCtx.enable {F : Type} (ctx : RegionCtx F) : Except Unit (RegionCtx F) :=
  .ok { ctx with enabled := ctx.enabled ++ [ctx.offset] }

/-- Embedding of `ctx.copy_assign(column, prev)`: assign `prev`'s value at
(current offset, column) and register an equality (copy) constraint
between the new cell and `prev`'s cell. -/
def RegionCtx.copy_assign {F : Type} (ctx : RegionCtx F) (col : Nat)
    (prev : AssignedCell F) : Except Unit (RegionCtx F × AssignedCell F) :=
  let c : Cell := { row := ctx.offset, col := col }
  .ok ({ ctx with
          assignments := ctx.assignments ++ [(c, prev.value)]
          copies := ctx.copies ++ [(c, prev.cell)] },
       { cell := c, value := prev.value })

/-- Embedding of `ctx.assign_advice(column, value)`: a free assignment at
(current offset, column), with no copy constraint. -/
def RegionCtx.assign_advice {F : Type} (ctx : RegionCtx F) (col : Nat)
    (v : Option F) : Except Unit (RegionCtx F × AssignedCell F) :=
  let c : Cell := { row := ctx.offset, col := col }
  .ok ({ ctx with assignments := ctx.assignments ++ [(c, v)] },
       { cell := c, value := v })

/-- Embedding of `ctx.next()`: advance the region offset one row. -/
def RegionCtx.next {F : Type} (ctx : RegionCtx F) : RegionCtx F :=
  { ctx with offset := ctx.offset + 1 }

/-- Embedding of the free function `copy_state` of `absorb.rs`
(lines 11-20), generalised over the loop's starting column index `i`:
copy-assign each entry of `prev_state` into column `advice i`,
`advice (i+1)`, ... at the current offset, returning the newly
assigned cells.  The source calls it with the full array, i.e. `i = 0`. -/
def copy_state {F : Type} (advice : Nat → Nat) :
    Nat → RegionCtx F → List (AssignedCell F) →
    Except Unit (RegionCtx F × List (AssignedCell F))
  | _, ctx, [] => .ok (ctx, [])
  | i, ctx, a :: rest =>
    match ctx.copy_assign (advice i) a with
    | .error e => .error e
    | .ok (ctx1, c) =>
      match copy_state advice (i + 1) ctx1 rest with
      | .error e => .error e
      | .ok (ctx2, cs) => .ok (ctx2, c :: cs)

/-- The per-column sum computed in `AbsorbChip::synthesize` (lines 81-87):
`chunk.value().and_then(|s| pos_state.value().map(|ps| s + ps))`.
Unknown (`none`) on either side propagates to `none`. -/
def sum_value {F : Type} [Add F] (chunk_state pos_state : AssignedCell F) : Option F :=
  chunk_state.value.bind (fun s => pos_state.value.map (fun ps => s + ps))

/-- The `try_map` loop of `AbsorbChip::synthesize`: for each pair
(chunk cell, previous-state cell), free-assign their `sum_value` into
the matching advice column at the current offset. -/
def assign_sums {F : Type} [Add F] (advice : Nat → Nat) :
    Nat → RegionCtx F → List (AssignedCell F × AssignedCell F) →
    Except Unit (RegionCtx F × List (AssignedCell F))
  | _, ctx, [] => .ok (ctx, [])
  | i, ctx, (chunk_state, pos_state) :: rest =>
    match ctx.assign_advice (advice i) (sum_value chunk_state pos_state) with
    | .error e => .error e
    | .ok (ctx1, c) =>
      match assign_sums advice (i + 1) ctx1 rest with
      | .error e => .error e
      | .ok (ctx2, cs) => .ok (ctx2, c :: cs)

/-- Embedding of `AbsorbChip::synthesize` (lines 61-92): open a region at
offset 0, enable the selector, copy-assign the previous state into
row 0, the chunk into row 1, and free-assign the per-column sums into
row 2, returning the row-2 cells.  `prev_state` and `chunk` are the
chip's `prev_state` and `state` fields. -/
def AbsorbChip.synthesize {F : Type} [Add F] (advice : Nat → Nat)
    (prev_state chunk : List (AssignedCell F)) :
    Except Unit (RegionCtx F × List (AssignedCell F)) :=
  match (RegionCtx.new F 0).enable with
  | .error e => .error e
  | .ok ctx0 =>
    match copy_state advice 0 ctx0 prev_state with
    | .error e => .error e
    | .ok (ctx1, loaded_state) =>
      match copy_state advice 0 ctx1.next chunk with
      | .error e => .error e
      | .ok (ctx2, loaded_chunk) =>
        match assign_sums advice 0 ctx2.next (loaded_chunk.zip loaded_state) with
        | .error e => .error e
        | .ok (ctx3, next_state) => .ok (ctx3, next_state)

/-- Embedding of the gate registered by `AbsorbChip::configure`
(lines 40-59): one expression per column index `i < WIDTH`, namely
`s * (v (r+2) (advice i) - (v (r+1) (advice i) + v r (advice i)))`,
where `v row col` is the table value at that position, `s` the
selector value at row `r`, and the three rotations are `cur`, `next`
and `Rotation(2)`. -/
def absorb_gate_exprs {F : Type} [Field F] (WIDTH : Nat) (advice : Nat → Nat)
    (s : F) (v : Nat → Nat → F) (r : Nat) : List F :=
  (List.range WIDTH).map (fun i =>
    s * (v (r + 2) (advice i) - (v (r + 1) (advice i) + v r (advice i))))

/-!
Part 3: lemmas about the reputation engine.
-/

/-- When every non-self snapshot entry has a declared local-trust entry
toward `i`, the heartbeat accumulation loop completes and computes the
spec's sum on top of the starting accumulator. -/
theorem heartbeat_sum_total (i : Nat) (ns : List Peer) :
    ∀ acc : ℚ,
    (∀ j ∈ ns, i ≠ j.index → (Peer.get_local_trust_score j i).isSome = true) →
    heartbeat_sum i acc ns = some (acc + raw_sum_spec i ns) := by
  induction ns with
  | nil => intro acc _; simp [heartbeat_sum, raw_sum_spec]
  | cons j rest ih =>
    intro acc h
    have hhd := h j (by simp)
    have htl : ∀ j' ∈ rest, i ≠ j'.index →
        (Peer.get_local_trust_score j' i).isSome = true := by
      intro j' hj' hne
      exact h j' (by simp [hj']) hne
    by_cases em : i = j.index
    · simp only [heartbeat_sum, raw_sum_spec, List.filter_cons]
      rw [if_pos em]
      have : (i != j.index) = false := by simp [em]
      simp only [this, Bool.false_eq_true, if_false]
      exact ih acc htl
    · obtain ⟨w, hw⟩ := Option.isSome_iff_exists.mp (hhd em)
      simp only [heartbeat_sum, raw_sum_spec, List.filter_cons]
      rw [if_neg em, hw]
      have hbne : (i != j.index) = true := by simp [em]
      simp only [hbne, if_true, List.map_cons, List.sum_cons]
      rw [ih (acc + w * j.global_trust_score) htl]
      simp only [raw_sum_spec, hw, Option.getD_some]
      congr 1
      ring

/-- The heartbeat accumulation loop ignores every snapshot entry whose
index equals the updating peer's own index: filtering those entries
out does not change the loop's result. -/
theorem heartbeat_sum_filter_self (i : Nat) (ns : List Peer) :
    ∀ acc : ℚ,
    heartbeat_sum i acc ns =
      heartbeat_sum i acc (ns.filter (fun j => i != j.index)) := by
  induction ns with
  | nil => intro acc; rfl
  | cons j rest ih =>
    intro acc
    by_cases em : i = j.index
    · have hbne : (i != j.index) = false := by simp [em]
      simp only [heartbeat_sum, List.filter_cons, hbne, Bool.false_eq_true, if_false]
      rw [if_pos em]
      exact ih acc
    · have hbne : (i != j.index) = true := by simp [em]
      simp only [heartbeat_sum, List.filter_cons, hbne, if_true]
      rw [if_neg em, if_neg em]
      cases hw : Peer.get_local_trust_score j i with
      | none => rfl
      | some w => exact ih (acc + w * j.global_trust_score)

/-!
Part 4: the reputation-engine claim theorems.
-/

/-- Claim C3: for a non-converged peer whose every non-self snapshot
entry declares a local-trust entry toward it, `heartbeat` commits
`(1 - preTrustWeight) * raw + preTrustWeight * preTrustScore`, where
`raw` sums each other entry's local trust toward the peer times that
entry's global trust score. -/
theorem heartbeat_formula (p : Peer) (ns : List Peer) (delta a : ℚ)
    (h1 : p.is_converged = false)
    (h2 : ∀ j ∈ ns, p.index ≠ j.index →
      (Peer.get_local_trust_score j p.index).isSome = true) :
    ∃ p', p.heartbeat ns delta a = some p' ∧
      p'.global_trust_score =
        (1 - a) * raw_sum_spec p.index ns + a * p.pre_trust_score := by
  have hsum := heartbeat_sum_total p.index ns 0 h2
  rw [zero_add] at hsum
  refine ⟨{ p with
      global_trust_score := (1 - a) * raw_sum_spec p.index ns + a * p.pre_trust_score
      is_converged :=
        if |(1 - a) * raw_sum_spec p.index ns + a * p.pre_trust_score
            - p.global_trust_score| ≤ delta
        then true else p.is_converged }, ?_, rfl⟩
  simp only [Peer.heartbeat, h1, Bool.false_eq_true, if_false, hsum]

/-- Witness for C3: a concrete non-converged peer and a snapshot whose
single other entry declares an opinion toward it. -/
theorem heartbeat_formula_witness :
    ∃ p', (Peer.new 0 0 (1/2)).heartbeat
        [{ index := 1, local_trust_scores := [(0, 1/2)], global_trust_score := 1/3,
           pre_trust_score := 1/4, is_converged := false }] (1/1000000) (2/5) = some p' ∧
      p'.global_trust_score =
        (1 - 2/5) * raw_sum_spec (Peer.new 0 0 (1/2)).index
            [{ index := 1, local_trust_scores := [(0, 1/2)], global_trust_score := 1/3,
               pre_trust_score := 1/4, is_converged := false }]
          + (2/5) * (Peer.new 0 0 (1/2)).pre_trust_score :=
  heartbeat_formula (Peer.new 0 0 (1/2))
    [{ index := 1, local_trust_scores := [(0, 1/2)], global_trust_score := 1/3,
       pre_trust_score := 1/4, is_converged := false }] (1/1000000) (2/5)
    (by rfl) (by decide)

/-- Claim C4: a converged peer is left entirely unchanged by `heartbeat`,
and `add_neighbor` never clears the convergence latch. -/
theorem converged_is_latched (p : Peer) (ns : List Peer) (delta a : ℚ)
    (k : Nat) (v : ℚ) (h : p.is_converged = true) :
    p.heartbeat ns delta a = some p ∧ (p.add_neighbor k v).is_converged = true := by
  constructor
  · simp [Peer.heartbeat, h]
  · simpa [Peer.add_neighbor] using h

/-- Witness for C4: a concrete converged peer. -/
theorem converged_is_latched_witness :
    ({ index := 0, local_trust_scores := [], global_trust_score := 1,
       pre_trust_score := 1/2, is_converged := true } : Peer).heartbeat
        [Peer.new 1 0 0] (1/1000000) (2/5) =
      some { index := 0, local_trust_scores := [], global_trust_score := 1,
             pre_trust_score := 1/2, is_converged := true } ∧
    (({ index := 0, local_trust_scores := [], global_trust_score := 1,
        pre_trust_score := 1/2, is_converged := true } : Peer).add_neighbor 1 (1/3)).is_converged
      = true :=
  converged_is_latched
    { index := 0, local_trust_scores := [], global_trust_score := 1,
      pre_trust_score := 1/2, is_converged := true }
    [Peer.new 1 0 0] (1/1000000) (2/5) 1 (1/3) (by rfl)

/-- Claim C5: for a non-converged peer whose accumulation loop completes
with value `raw`, `heartbeat` commits the blended score
unconditionally, and sets the convergence latch exactly when the
absolute difference between the new and the old score is at most
`delta`. -/
theorem heartbeat_convergence_iff (p : Peer) (ns : List Peer) (delta a raw : ℚ)
    (h1 : p.is_converged = false)
    (h2 : heartbeat_sum p.index 0 ns = some raw) :
    ∃ p', p.heartbeat ns delta a = some p' ∧
      p'.global_trust_score = (1 - a) * raw + a * p.pre_trust_score ∧
      (p'.is_converged = true ↔
        |(1 - a) * raw + a * p.pre_trust_score - p.global_trust_score| ≤ delta) := by
  refine ⟨{ p with
      global_trust_score := (1 - a) * raw + a * p.pre_trust_score
      is_converged :=
        if |(1 - a) * raw + a * p.pre_trust_score - p.global_trust_score| ≤ delta
        then true else p.is_converged }, ?_, rfl, ?_⟩
  · simp only [Peer.heartbeat, h1, Bool.false_eq_true, if_false, h2]
  · by_cases hd : |(1 - a) * raw + a * p.pre_trust_score - p.global_trust_score| ≤ delta
    · simp [hd]
    · simp [hd, h1]

/-- Witness for C5: a concrete non-converged peer; the loop over the
empty snapshot completes with `raw = 0`. -/
theorem heartbeat_convergence_iff_witness :
    ∃ p', (Peer.new 0 0 (1/2)).heartbeat [] (1/1000000) (2/5) = some p' ∧
      p'.global_trust_score = (1 - 2/5) * 0 + (2/5) * (Peer.new 0 0 (1/2)).pre_trust_score ∧
      (p'.is_converged = true ↔
        |(1 - 2/5) * 0 + (2/5) * (Peer.new 0 0 (1/2)).pre_trust_score
            - (Peer.new 0 0 (1/2)).global_trust_score| ≤ 1/1000000) :=
  heartbeat_convergence_iff (Peer.new 0 0 (1/2)) [] (1/1000000) (2/5) 0
    (by rfl) (by rfl)

/-- Claim C6: snapshot entries carrying the updating peer's own index
contribute nothing to the heartbeat, whether or not the peer declares
a local-trust entry for itself: dropping every such entry from the
snapshot yields the identical result. -/
theorem heartbeat_self_exclusion (p : Peer) (ns : List Peer) (delta a : ℚ) :
    p.heartbeat ns delta a =
      p.heartbeat (ns.filter (fun j => p.index != j.index)) delta a := by
  simp only [Peer.heartbeat, heartbeat_sum_filter_self p.index ns 0]

/-- Claim C10: whenever `heartbeat` returns normally, the peer's
`index`, `pre_trust_score` and `local_trust_scores` fields are
unchanged; only `global_trust_score` and `is_converged` are written. -/
theorem heartbeat_frame (p : Peer) (ns : List Peer) (delta a : ℚ) (p' : Peer)
    (h : p.heartbeat ns delta a = some p') :
    p'.index = p.index ∧ p'.pre_trust_score = p.pre_trust_score ∧
      p'.local_trust_scores = p.local_trust_scores := by
  by_cases hc : p.is_converged
  · simp only [Peer.heartbeat, hc, if_true, Option.some_inj] at h
    subst h
    exact ⟨rfl, rfl, rfl⟩
  · simp only [Peer.heartbeat, hc, Bool.false_eq_true, if_false] at h
    cases hs : heartbeat_sum p.index 0 ns with
    | none => rw [hs] at h; exact absurd h (by simp)
    | some t =>
      rw [hs] at h
      simp only [Option.some_inj] at h
      subst h
      exact ⟨rfl, rfl, rfl⟩

/-- A concrete converged peer used to witness the frame property. -/
def frame_witness_peer : Peer :=
  { index := 2, local_trust_scores := [(0, 1)], global_trust_score := 1,
    pre_trust_score := 1/3, is_converged := true }

/-- Witness for C10: a concrete heartbeat that returns normally. -/
theorem heartbeat_frame_witness :
    frame_witness_peer.index = frame_witness_peer.index ∧
      frame_witness_peer.pre_trust_score = frame_witness_peer.pre_trust_score ∧
      frame_witness_peer.local_trust_scores = frame_witness_peer.local_trust_scores :=
  heartbeat_frame frame_witness_peer [] (1/1000000) (2/5) frame_witness_peer (by rfl)

/-!
Part 5: evaluations at the failing inputs of the lookup panic.
-/

/-- Claim C1, evaluated at the failing input: the updating peer has
index 0 and the snapshot holds a peer of index 1 without a declared
local-trust entry toward 0; `heartbeat` hits the panicking map index
(`none` here) instead of treating the missing entry as zero. -/
theorem heartbeat_missing_entry_panics :
    (Peer.new 0 0 (1/2)).heartbeat
      [{ index := 1, local_trust_scores := [(2, 1/2)], global_trust_score := 3/4,
         pre_trust_score := 1/2, is_converged := false }] (1/1000000) (2/5) = none := by
  rfl

/-- Claim C7, evaluated at the failing input: in a two-peer network
where no peer has neighbours (both local-trust maps empty), the first
peer's heartbeat against the snapshot of both peers hits the
panicking map index (`none` here), so no score is produced at all,
let alone `preTrustWeight * preTrustScore`. -/
theorem isolated_network_heartbeat_panics :
    (Peer.new 0 0 (1/2)).heartbeat [Peer.new 0 0 (1/2), Peer.new 1 0 (1/2)]
      (1/1000000) (2/5) = none := by
  rfl

/-- In contrast, a network with a single isolated peer does produce
`preTrustWeight * preTrustScore` in one heartbeat: the intended
behaviour of the isolated-network property, reachable only when no
cross-peer lookup happens. -/
theorem isolated_single_peer_heartbeat :
    ∃ p', (Peer.new 0 0 (1/2)).heartbeat [Peer.new 0 0 (1/2)] (1/1000000) (2/5) = some p' ∧
      p'.global_trust_score = (2/5) * (1/2) := by
  refine ⟨_, rfl, ?_⟩
  norm_num [Peer.new]

/-!
Part 6: closed forms for the region operations of the absorb gadget.
-/

/-- The copy constraints `copy_state` registers: entry `k` of the input
list is bound to the fresh cell at (row `r`, column `advice (i+k)`). -/
def copy_pairs {F : Type} (advice : Nat → Nat) (r i : Nat) :
    List (AssignedCell F) → List (Cell × Cell)
  | [] => []
  | a :: rest => ({ row := r, col := advice i }, a.cell) :: copy_pairs advice r (i + 1) rest

/-- The assignments `copy_state` makes: the input values laid out at row
`r` from column `advice i` on. -/
def assigned_row {F : Type} (advice : Nat → Nat) (r i : Nat) :
    List (AssignedCell F) → List (Cell × Option F)
  | [] => []
  | a :: rest => ({ row := r, col := advice i }, a.value) :: assigned_row advice r (i + 1) rest

/-- The cells `copy_state` returns: the input values at their fresh
positions in row `r`. -/
def loaded_cells {F : Type} (advice : Nat → Nat) (r i : Nat) :
    List (AssignedCell F) → List (AssignedCell F)
  | [] => []
  | a :: rest =>
    { cell := { row := r, col := advice i }, value := a.value } :: loaded_cells advice r (i + 1) rest

/-- The cells `assign_sums` returns: per pair, the propagated sum value
at its fresh position in row `r`. -/
def sum_cells {F : Type} [Add F] (advice : Nat → Nat) (r i : Nat) :
    List (AssignedCell F × AssignedCell F) → List (AssignedCell F)
  | [] => []
  | (c, p) :: rest =>
    { cell := { row := r, col := advice i }, value := sum_value c p } :: sum_cells advice r (i + 1) rest

/-- The assignments `assign_sums` makes. -/
def sum_row {F : Type} [Add F] (advice : Nat → Nat) (r i : Nat) :
    List (AssignedCell F × AssignedCell F) → List (Cell × Option F)
  | [] => []
  | (c, p) :: rest =>
    ({ row := r, col := advice i }, sum_value c p) :: sum_row advice r (i + 1) rest

/-- Closed form of `copy_state`: it always succeeds, leaves the offset,
the enabled rows and the earlier state intact, appends one assignment
and one copy constraint per input cell, and returns the freshly
assigned cells. -/
theorem copy_state_eq {F : Type} (advice : Nat → Nat) (l : List (AssignedCell F)) :
    ∀ (i : Nat) (ctx : RegionCtx F),
    copy_state advice i ctx l = .ok
      ({ ctx with
          assignments := ctx.assignments ++ assigned_row advice ctx.offset i l
          copies := ctx.copies ++ copy_pairs advice ctx.offset i l },
       loaded_cells advice ctx.offset i l) := by
  induction l with
  | nil => intro i ctx; simp [copy_state, assigned_row, copy_pairs, loaded_cells]
  | cons a rest ih =>
    intro i ctx
    simp only [copy_state, RegionCtx.copy_assign, ih, assigned_row, copy_pairs,
      loaded_cells, List.append_assoc, List.cons_append, List.nil_append]

/-- Closed form of `assign_sums`: it always succeeds, leaves the offset,
the enabled rows, the copies and the earlier assignments intact,
appends one assignment per pair, and returns the freshly assigned sum
cells. -/
theorem assign_sums_eq {F : Type} [Add F] (advice : Nat → Nat)
    (l : List (AssignedCell F × AssignedCell F)) :
    ∀ (i : Nat) (ctx : RegionCtx F),
    assign_sums advice i ctx l = .ok
      ({ ctx with assignments := ctx.assignments ++ sum_row advice ctx.offset i l },
       sum_cells advice ctx.offset i l) := by
  induction l with
  | nil => intro i ctx; simp [assign_sums, sum_row, sum_cells]
  | cons a rest ih =>
    intro i ctx
    obtain ⟨c, p⟩ := a
    simp only [assign_sums, RegionCtx.assign_advice, ih, sum_row, sum_cells,
      List.append_assoc, List.cons_append, List.nil_append]

/-- Closed form of `AbsorbChip.synthesize`: the selector is enabled at
row 0, the previous state is copied into row 0, the chunk into row 1,
the per-column sums are freely assigned into row 2, and the row-2
cells are returned. -/
theorem synthesize_eq {F : Type} [Add F] (advice : Nat → Nat)
    (prev_state chunk : List (AssignedCell F)) :
    AbsorbChip.synthesize advice prev_state chunk = .ok
      ({ offset := 2
         enabled := [0]
         assignments :=
           assigned_row advice 0 0 prev_state ++ assigned_row advice 1 0 chunk
             ++ sum_row advice 2 0
                  ((loaded_cells advice 1 0 chunk).zip (loaded_cells advice 0 0 prev_state))
         copies := copy_pairs advice 0 0 prev_state ++ copy_pairs advice 1 0 chunk },
       sum_cells advice 2 0
         ((loaded_cells advice 1 0 chunk).zip (loaded_cells advice 0 0 prev_state))) := by
  simp only [AbsorbChip.synthesize, RegionCtx.new, RegionCtx.enable, copy_state_eq,
    RegionCtx.next, assign_sums_eq, List.nil_append, List.append_assoc]

/-- Entry `k` of a list is bound by the copy constraint that
`copy_state` starting at column index `i` registers at column
`advice (i + k)`. -/
theorem copy_pairs_mem {F : Type} (advice : Nat → Nat) (l : List (AssignedCell F)) :
    ∀ (r i k : Nat) (a : AssignedCell F), l.get? k = some a →
      (({ row := r, col := advice (i + k) } : Cell), a.cell) ∈ copy_pairs advice r i l := by
  induction l with
  | nil => intro r i k a h; simp at h
  | cons b rest ih =>
    intro r i k a h
    cases k with
    | zero =>
      simp only [List.get?] at h
      injection h with h
      subst h
      simp [copy_pairs]
    | succ k' =>
      simp only [List.get?] at h
      have hmem := ih r (i + 1) k' a h
      simp only [copy_pairs, List.mem_cons]
      right
      have : i + (k' + 1) = i + 1 + k' := by omega
      rw [this]
      exact hmem

/-- Entry `k` of `loaded_cells` sits at (row `r`, column `advice (i+k)`)
and carries the source entry's value. -/
theorem loaded_cells_get? {F : Type} (advice : Nat → Nat) (l : List (AssignedCell F)) :
    ∀ (r i k : Nat),
      (loaded_cells advice r i l).get? k =
        (l.get? k).map
          (fun a => { cell := { row := r, col := advice (i + k) }, value := a.value }) := by
  induction l with
  | nil => intro r i k; simp [loaded_cells]
  | cons b rest ih =>
    intro r i k
    cases k with
    | zero => simp [loaded_cells]
    | succ k' =>
      simp only [loaded_cells, List.get?, ih]
      have : i + (k' + 1) = i + 1 + k' := by omega
      rw [this]

/-- Entry `k` of `sum_cells` sits at (row `r`, column `advice (i+k)`) and
carries the propagated sum of the pair's values. -/
theorem sum_cells_get? {F : Type} [Add F] (advice : Nat → Nat)
    (l : List (AssignedCell F × AssignedCell F)) :
    ∀ (r i k : Nat),
      (sum_cells advice r i l).get? k =
        (l.get? k).map
          (fun cp => { cell := { row := r, col := advice (i + k) }, value := sum_value cp.1 cp.2 }) := by
  induction l with
  | nil => intro r i k; simp [sum_cells]
  | cons b rest ih =>
    intro r i k
    obtain ⟨c, p⟩ := b
    cases k with
    | zero => simp [sum_cells]
    | succ k' =>
      simp only [sum_cells, List.get?, ih]
      have : i + (k' + 1) = i + 1 + k' := by omega
      rw [this]

/-- Zipping preserves positional lookup when both sides are defined. -/
theorem zip_get?_eq {α β : Type} (l1 : List α) :
    ∀ (l2 : List β) (k : Nat) (a : α) (b : β),
      l1.get? k = some a → l2.get? k = some b → (l1.zip l2).get? k = some (a, b) := by
  induction l1 with
  | nil => intro l2 k a b h; simp at h
  | cons x rest ih =>
    intro l2 k a b h1 h2
    cases l2 with
    | nil => simp at h2
    | cons y rest2 =>
      cases k with
      | zero =>
        simp only [List.get?] at h1 h2
        injection h1 with h1
        injection h2 with h2
        subst h1; subst h2
        rfl
      | succ k' =>
        simp only [List.get?] at h1 h2
        simpa [List.zip_cons_cons] using ih rest2 k' a b h1 h2

/-!
Part 7: the absorb-gadget claim theorems.
-/

/-- The concrete WIDTH-2 table of the spec's gate-correctness test:
row 0 holds the previous state `[3, 5]`, row 1 the chunk `[2, 7]` and
row 2 the candidate next state `[x, y]`. -/
def test_assignment {F : Type} [Field F] (x y : F) : Nat → Nat → F := fun row col =>
  match row, col with
  | 0, 0 => 3
  | 0, 1 => 5
  | 1, 0 => 2
  | 1, 1 => 7
  | 2, 0 => x
  | 2, 1 => y
  | _, _ => 0

/-- Claim C2: with the selector enabled, the absorb gate is exactly the
conjunction of the `WIDTH` per-column equations
`cell (r+2) c = cell r c + cell (r+1) c` (no cross-column mixing);
consequently at WIDTH 2 with previous state `[3, 5]` and chunk
`[2, 7]` the gate is satisfied precisely when the third row is
`[5, 12]`, and fails for every deviating third row. -/
theorem absorb_gate_structure :
    (∀ (F : Type) [Field F] (W : Nat) (advice : Nat → Nat) (v : Nat → Nat → F) (r : Nat),
      (∀ e ∈ absorb_gate_exprs W advice 1 v r, e = 0) ↔
        ∀ i, i < W → v (r + 2) (advice i) = v r (advice i) + v (r + 1) (advice i))
    ∧ (∀ (F : Type) [Field F] (x y : F),
      (∀ e ∈ absorb_gate_exprs 2 id 1 (test_assignment x y) 0, e = 0) ↔
        (x = 5 ∧ y = 12)) := by
  constructor
  · intro F _ W advice v r
    simp only [absorb_gate_exprs, List.mem_map, List.mem_range, one_mul,
      forall_exists_index, and_imp]
    constructor
    · intro h i hi
      have he := h _ i hi rfl
      rw [sub_eq_zero] at he
      rw [he, add_comm]
    · intro h e i hi he
      subst he
      rw [sub_eq_zero, h i hi, add_comm]
  · intro F _ x y
    simp only [absorb_gate_exprs, List.range_succ, List.range_zero, List.nil_append,
      List.cons_append, List.map_cons, List.map_nil, List.mem_cons, List.not_mem_nil,
      or_false, one_mul, forall_eq_or_imp, forall_eq, id, test_assignment]
    rw [sub_eq_zero, sub_eq_zero]
    constructor
    · intro ⟨h1, h2⟩
      rw [h1, h2]
      norm_num
    · intro ⟨h1, h2⟩
      rw [h1, h2]
      norm_num

/-- Claim C9: `synthesize` copy-assigns each previous-state cell into
row 0 and each chunk cell into row 1: every consumed input cell is
bound by a registered copy constraint to the caller-supplied cell. -/
theorem absorb_copy_binding (F : Type) [Field F] (advice : Nat → Nat)
    (prev_state chunk : List (AssignedCell F)) :
    ∃ ctx out, AbsorbChip.synthesize advice prev_state chunk = Except.ok (ctx, out) ∧
      (∀ k a, prev_state.get? k = some a →
        (({ row := 0, col := advice k } : Cell), a.cell) ∈ ctx.copies) ∧
      (∀ k a, chunk.get? k = some a →
        (({ row := 1, col := advice k } : Cell), a.cell) ∈ ctx.copies) := by
  refine ⟨_, _, synthesize_eq advice prev_state chunk, ?_, ?_⟩
  · intro k a h
    have := copy_pairs_mem advice prev_state 0 0 k a h
    rw [Nat.zero_add] at this
    exact List.mem_append.mpr (Or.inl this)
  · intro k a h
    have := copy_pairs_mem advice chunk 1 0 k a h
    rw [Nat.zero_add] at this
    exact List.mem_append.mpr (Or.inr this)

/-- Claim C8: when either the previous-state entry or the chunk entry of
column `c` carries an unknown value, `synthesize` still succeeds and
the row-2 cell it assigns in column `c` is unknown as well. -/
theorem absorb_unknown_propagation (F : Type) [Field F] (advice : Nat → Nat)
    (prev_state chunk : List (AssignedCell F)) (c : Nat)
    (hlen : prev_state.length = chunk.length) (hc : c < chunk.length)
    (hu : (prev_state.map AssignedCell.value).get? c = some none ∨
      (chunk.map AssignedCell.value).get? c = some none) :
    ∃ ctx out, AbsorbChip.synthesize advice prev_state chunk = Except.ok (ctx, out) ∧
      (out.map AssignedCell.value).get? c = some none := by
  refine ⟨_, _, synthesize_eq advice prev_state chunk, ?_⟩
  have hcp : c < prev_state.length := hlen ▸ hc
  have hpc : prev_state.get? c = some (prev_state.get ⟨c, hcp⟩) := List.get?_eq_get hcp
  have hcc : chunk.get? c = some (chunk.get ⟨c, hc⟩) := List.get?_eq_get hc
  set pc := prev_state.get ⟨c, hcp⟩ with hpc_def
  set cc := chunk.get ⟨c, hc⟩ with hcc_def
  have hlp := loaded_cells_get? advice prev_state 0 0 c
  have hlc := loaded_cells_get? advice chunk 1 0 c
  rw [hpc] at hlp
  rw [hcc] at hlc
  simp only [Option.map_some', Nat.zero_add] at hlp hlc
  have hzip := zip_get?_eq _ _ c _ _ hlc hlp
  have hout := sum_cells_get? advice
    ((loaded_cells advice 1 0 chunk).zip (loaded_cells advice 0 0 prev_state)) 2 0 c
  rw [hzip] at hout
  simp only [Option.map_some', Nat.zero_add] at hout
  rw [List.get?_map, hout]
  simp only [Option.map_some', Option.some_inj]
  have hval : pc.value = none ∨ cc.value = none := by
    rcases hu with hu | hu
    · rw [List.get?_map, hpc] at hu
      simp only [Option.map_some', Option.some_inj] at hu
      exact Or.inl hu
    · rw [List.get?_map, hcc] at hu
      simp only [Option.map_some', Option.some_inj] at hu
      exact Or.inr hu
  rcases hval with hval | hval
  · cases hv : cc.value <;> simp [sum_value, hv, hval]
  · simp [sum_value, hval]

/-- Witness for C8: a WIDTH-1 instance over `ℚ` whose previous-state
cell is unknown while the chunk cell is known. -/
theorem absorb_unknown_propagation_witness :
    ∃ ctx out,
      AbsorbChip.synthesize id
          [({ cell := { row := 10, col := 0 }, value := none } : AssignedCell ℚ)]
          [({ cell := { row := 11, col := 0 }, value := some 3 } : AssignedCell ℚ)]
        = Except.ok (ctx, out) ∧
      (out.map AssignedCell.value).get? 0 = some none :=
  absorb_unknown_propagation ℚ id
    [{ cell := { row := 10, col := 0 }, value := none }]
    [{ cell := { row := 11, col := 0 }, value := some 3 }] 0
    (by rfl) (by decide) (Or.inl (by rfl))

end EigenTrust
